import Mathlib

/-!
Verification of the Pollard p-1 factorization routine in
src/maths/pollards_p_minus_1.py against its specification.

The Python source defines one public function

  pollard_rho(num, B, step=1, attempts=3) -> int | None

together with a nested generator generate_primes(limit).  The embedding
below translates each piece:

* generate_primes(limit): the generator draws candidates from
  range(2, limit + 1) and repeatedly yields the head of the stream and
  filters out its multiples.  sieveAux performs exactly this loop; the
  fuel argument bounds the number of iterations, and since every
  iteration consumes at least one element of the streamable range, the
  initial length of the range is a sufficient fuel.  generate_primes
  instantiates it on the list [2, ..., limit] (empty when limit < 2),
  mirroring range(2, limit + 1) over arbitrary-precision integers.

* s = int(log(B, prime)): the source computes the exponent with a
  floating-point logarithm.  IEEE doubles are outside a shallow
  arithmetic embedding; smoothExp embeds the value this expression is
  specified to produce, the exact integer floor of log_prime(B), i.e.
  the greatest s with prime ^ s <= B.  The concrete inputs on which the
  float deviates from this exact value are recorded with claim C3.

* guess = pow(guess, pow(prime, s), num): foldStep, using Int.emod,
  which agrees with Python's nonnegative % on a positive modulus.

* the inner for-loop with its divisor = gcd(guess - 1, num) test:
  attemptLoop (math.gcd of ints is the gcd of absolute values, which is
  Int.gcd).  guessTrace records the successive values taken by guess in
  the same loop.

* the outer retry loop: randint(2, num) is modelled by an explicit
  sequence of draws; attempt number i consumes draws i, so a run of the
  program corresponds to a choice of the draws function.  searchFrom
  iterates the attempts; pollard_rho adds the two guard clauses, with
  ValueError modelled as Except.error carrying the source's message.
-/

namespace PollardPMinusOne

/-- One pass of the incremental sieve from generate_primes: take the head
of the candidate stream, emit it, drop its multiples from the rest.  The
fuel argument bounds the iteration count of the Python while-loop. -/
def sieveAux : ℕ → List ℕ → List ℕ
  | 0, _ => []
  | _ + 1, [] => []
  | fuel + 1, p :: xs => p :: sieveAux fuel (xs.filter (fun x => x % p != 0))

/-- Embedding of generate_primes(limit): sieve the list
[2, ..., limit] = range(2, limit + 1).  The length of that list bounds
the number of yields, hence serves as fuel. -/
def generate_primes (limit : ℤ) : List ℕ :=
  sieveAux (limit - 1).toNat (List.range' 2 (limit - 1).toNat)

/-- Embedding of s = int(log(B, prime)): the greatest s with
prime ^ s <= B, which is the exact value of the floor of the logarithm
that the source's floating-point expression is meant to compute (any
admissible s is at most B because 2 ^ s <= p ^ s <= B).  See claim C3
for the inputs where the float deviates from this exact value. -/
def smoothExp (B : ℤ) (p : ℕ) : ℕ :=
  Nat.findGreatest (fun s => p ^ s ≤ B.toNat) B.toNat

/-- Embedding of one fold-in step of the inner loop:
guess = pow(guess, pow(prime, s), num). -/
def foldStep (num B guess : ℤ) (p : ℕ) : ℤ :=
  guess ^ (p ^ smoothExp B p) % num

/-- Embedding of the inner for-loop of pollard_rho over the stream of
primes: fold in each prime power, compute divisor = gcd(guess - 1, num),
and return the divisor as soon as it is neither 1 nor num. -/
def attemptLoop (num B : ℤ) : List ℕ → ℤ → Option ℤ
  | [], _ => none
  | p :: ps, guess =>
    if ((Int.gcd (foldStep num B guess p - 1) num : ℤ) ≠ 1 ∧
        (Int.gcd (foldStep num B guess p - 1) num : ℤ) ≠ num) then
      some (Int.gcd (foldStep num B guess p - 1) num)
    else attemptLoop num B ps (foldStep num B guess p)

/-- The successive values taken by the mutable variable guess during one
run of the inner loop of pollard_rho, one entry per fold-in step. -/
def guessTrace (num B : ℤ) : List ℕ → ℤ → List ℤ
  | [], _ => []
  | p :: ps, guess => foldStep num B guess p :: guessTrace num B ps (foldStep num B guess p)

/-- Embedding of the outer retry loop: attempt number i draws the base
draws i; the fuel counts the remaining attempts. -/
def searchFrom (num B : ℤ) (draws : ℕ → ℤ) : ℕ → ℕ → Option ℤ
  | _, 0 => none
  | i, k + 1 =>
    match attemptLoop num B (generate_primes B) (draws i) with
    | some d => some d
    | none => searchFrom num B draws (i + 1) k

/-- Embedding of pollard_rho(num, B, step, attempts) with the stream of
randint(2, num) results made explicit as draws.  The step parameter is
accepted and, as in the source, never used.  range(attempts) runs
attempts.toNat times. -/
def pollard_rho (num B : ℤ) (step : ℤ) (attempts : ℤ) (draws : ℕ → ℤ) :
    Except String (Option ℤ) :=
  if num < 0 then Except.error "The input value must be a natural number (positive)"
  else if num < 2 then Except.ok none
  else Except.ok (searchFrom num B draws 0 attempts.toNat)

/-- Invariant of the candidate stream: strictly ascending, everything at
least 2, and closed under prime factors (any prime factor of a listed
candidate is itself still listed). -/
def SieveInv (l : List ℕ) : Prop :=
  List.Sorted (· < ·) l ∧ ∀ x ∈ l, 2 ≤ x ∧ ∀ q : ℕ, q.Prime → q ∣ x → q ∈ l

/-! ### Helper lemmas for the attempt loop -/

/-- Any divisor returned by the inner loop is the gcd test's value: it
divides num, is nonnegative, and differs from 1 and from num. -/
lemma attemptLoop_some (num B : ℤ) :
    ∀ (ps : List ℕ) (g d : ℤ), attemptLoop num B ps g = some d →
      d ∣ num ∧ 0 ≤ d ∧ d ≠ 1 ∧ d ≠ num := by
  intro ps
  induction ps with
  | nil => intro g d h; simp [attemptLoop] at h
  | cons p ps ih =>
    intro g d h
    rw [attemptLoop] at h
    by_cases hc : ((Int.gcd (foldStep num B g p - 1) num : ℤ) ≠ 1 ∧
        (Int.gcd (foldStep num B g p - 1) num : ℤ) ≠ num)
    · rw [if_pos hc] at h
      obtain rfl : (Int.gcd (foldStep num B g p - 1) num : ℤ) = d := by
        exact Option.some_injective _ h
      exact ⟨Int.gcd_dvd_right, Int.natCast_nonneg _, hc.1, hc.2⟩
    · rw [if_neg hc] at h
      exact ih _ d h

/-- If the outer loop reports a divisor, some attempt's inner loop did. -/
lemma searchFrom_some (num B : ℤ) (draws : ℕ → ℤ) :
    ∀ (k i : ℕ) (d : ℤ), searchFrom num B draws i k = some d →
      ∃ g, attemptLoop num B (generate_primes B) g = some d := by
  intro k
  induction k with
  | zero => intro i d h; simp [searchFrom] at h
  | succ k ih =>
    intro i d h
    rw [searchFrom] at h
    cases hA : attemptLoop num B (generate_primes B) (draws i) with
    | some d₀ => rw [hA] at h; exact ⟨draws i, hA.trans h⟩
    | none => rw [hA] at h; exact ih (i + 1) d h

/-- C2: whenever find_factor returns a value d, then d divides num
exactly and 1 < d < num; it never returns 1 and never returns num. -/
theorem find_factor_divisor_sound (num B step attempts : ℤ) (draws : ℕ → ℤ) (d : ℤ)
    (h : pollard_rho num B step attempts draws = Except.ok (some d)) :
    1 < d ∧ d < num ∧ d ∣ num := by
  rw [pollard_rho] at h
  by_cases h0 : num < 0
  · rw [if_pos h0] at h; exact absurd h (by simp)
  rw [if_neg h0] at h
  by_cases h2 : num < 2
  · rw [if_pos h2] at h; exact absurd h (by simp)
  rw [if_neg h2] at h
  push_neg at h0 h2
  have hs : searchFrom num B draws 0 attempts.toNat = some d := by
    exact Except.ok.inj h
  obtain ⟨g, hg⟩ := searchFrom_some num B draws attempts.toNat 0 d hs
  obtain ⟨hdvd, hnn, hne1, hnen⟩ := attemptLoop_some num B (generate_primes B) g d hg
  have hdne0 : d ≠ 0 := by
    intro h0'
    rw [h0'] at hdvd
    exact absurd (zero_dvd_iff.mp hdvd) (by omega)
  have hlt : d < num := lt_of_le_of_ne (Int.le_of_dvd (by omega) hdvd) hnen
  exact ⟨by omega, hlt, hdvd⟩

/-- Witness for C2 at num = 15, B = 3, base 2: the first fold-in gives
2 ^ 2 mod 15 = 4 and gcd(3, 15) = 3, a proper divisor. -/
theorem find_factor_divisor_sound_witness : 1 < (3 : ℤ) ∧ (3 : ℤ) < 15 ∧ (3 : ℤ) ∣ 15 :=
  find_factor_divisor_sound 15 3 1 1 (fun _ => 2) 3 rfl

/-- C4: for negative num the function signals the invalid-input error,
for every bound, step, attempt budget and draw sequence alike: the error
is raised before any randomness is consumed or any prime is generated. -/
theorem find_factor_invalid_input (num B step attempts : ℤ) (draws : ℕ → ℤ)
    (h : num < 0) :
    pollard_rho num B step attempts draws =
      Except.error "The input value must be a natural number (positive)" := by
  rw [pollard_rho, if_pos h]

/-- Witness for C4 at num = -5. -/
theorem find_factor_invalid_input_witness :
    pollard_rho (-5) 200 1 3 (fun _ => 0) =
      Except.error "The input value must be a natural number (positive)" :=
  find_factor_invalid_input (-5) 200 1 3 (fun _ => 0) (by norm_num)

/-- C5: for num = 0 or num = 1 the function returns None immediately,
for every bound, step, attempt budget and draw sequence alike: no
randomness is consumed and no attempt is run. -/
theorem find_factor_below_two (num B step attempts : ℤ) (draws : ℕ → ℤ)
    (h0 : 0 ≤ num) (h2 : num < 2) :
    pollard_rho num B step attempts draws = Except.ok none := by
  rw [pollard_rho, if_neg (by omega), if_pos h2]

/-- Witness for C5 at num = 1. -/
theorem find_factor_below_two_witness :
    pollard_rho 1 200 1 3 (fun _ => 0) = Except.ok none :=
  find_factor_below_two 1 200 1 3 (fun _ => 0) (by norm_num) (by norm_num)

/-- If every attempt in a window fails, the outer loop reports failure. -/
lemma searchFrom_none (num B : ℤ) (draws : ℕ → ℤ) :
    ∀ (k i : ℕ),
      (∀ j : ℕ, i ≤ j → j < i + k → attemptLoop num B (generate_primes B) (draws j) = none) →
      searchFrom num B draws i k = none := by
  intro k
  induction k with
  | zero => intro i _; rfl
  | succ k ih =>
    intro i h
    rw [searchFrom, h i (le_refl i) (by omega)]
    exact ih (i + 1) (fun j hj1 hj2 => h j (by omega) (by omega))

/-- C7: for num >= 2 the search is a total function of its inputs (each
attempt folds over the finite prime list generate_primes B), and when
every one of the attempts.toNat attempts fails to produce a nontrivial
gcd, the result is None. -/
theorem find_factor_attempts_exhausted (num B step attempts : ℤ) (draws : ℕ → ℤ)
    (h2 : 2 ≤ num)
    (hfail : ∀ i : ℕ, i < attempts.toNat →
      attemptLoop num B (generate_primes B) (draws i) = none) :
    pollard_rho num B step attempts draws = Except.ok none := by
  rw [pollard_rho, if_neg (by omega), if_neg (by omega)]
  rw [searchFrom_none num B draws attempts.toNat 0 (fun j _ hj => hfail j (by omega))]

/-- Witness for C7: num = 17 (prime), B = 3, two attempts with base 2;
both attempts run the full prime list [2, 3] and fail, giving None. -/
theorem find_factor_attempts_exhausted_witness :
    pollard_rho 17 3 1 2 (fun _ => 2) = Except.ok none :=
  find_factor_attempts_exhausted 17 3 1 2 (fun _ => 2) (by norm_num)
    (fun i _ => by
      show attemptLoop 17 3 (generate_primes 3) 2 = none
      decide)

/-- If two draw sequences agree on a window of indices, the outer loop
behaves identically on them over that window. -/
lemma searchFrom_congr (num B : ℤ) (d₁ d₂ : ℕ → ℤ) :
    ∀ (k i : ℕ), (∀ j : ℕ, i ≤ j → j < i + k → d₁ j = d₂ j) →
      searchFrom num B d₁ i k = searchFrom num B d₂ i k := by
  intro k
  induction k with
  | zero => intro i _; rfl
  | succ k ih =>
    intro i h
    rw [searchFrom, searchFrom, h i (le_refl i) (by omega)]
    cases attemptLoop num B (generate_primes B) (d₂ i) with
    | some d => rfl
    | none => exact ih (i + 1) (fun j hj1 hj2 => h j (by omega) (by omega))

/-- C8: the function is deterministic given its randomness: two runs
with the same num, B, step and attempts whose draw sequences agree on
the attempts actually consumed return the same result. -/
theorem find_factor_deterministic (num B step attempts : ℤ) (d₁ d₂ : ℕ → ℤ)
    (h : ∀ i : ℕ, i < attempts.toNat → d₁ i = d₂ i) :
    pollard_rho num B step attempts d₁ = pollard_rho num B step attempts d₂ := by
  rw [pollard_rho, pollard_rho]
  by_cases h0 : num < 0
  · rw [if_pos h0, if_pos h0]
  rw [if_neg h0, if_neg h0]
  by_cases h2 : num < 2
  · rw [if_pos h2, if_pos h2]
  rw [if_neg h2, if_neg h2]
  rw [searchFrom_congr num B d₁ d₂ attempts.toNat 0 (fun j _ hj => h j (by omega))]

/-- Witness for C8: two draw sequences agreeing on indices 0 and 1 (all
that two attempts consume) but differing from index 2 on. -/
theorem find_factor_deterministic_witness :
    pollard_rho 17 3 1 2 (fun _ => 2) =
      pollard_rho 17 3 1 2 (fun i => if i < 2 then 2 else 99) :=
  find_factor_deterministic 17 3 1 2 (fun _ => 2) (fun i => if i < 2 then 2 else 99)
    (by decide)

/-- Each fold-in step reduces modulo num, so lands in [0, num). -/
lemma foldStep_mem_range (num B g : ℤ) (p : ℕ) (hnum : 0 < num) :
    0 ≤ foldStep num B g p ∧ foldStep num B g p < num :=
  ⟨Int.emod_nonneg _ (by omega), Int.emod_lt_of_pos _ hnum⟩

/-- C9: within an attempt, after every modular-exponentiation fold-in
step the running guess lies in [0, num): both the single step and every
intermediate value of the inner loop are reduced modulo num. -/
theorem guess_always_reduced (num B : ℤ) (hnum : 0 < num) :
    (∀ (g : ℤ) (p : ℕ), 0 ≤ foldStep num B g p ∧ foldStep num B g p < num) ∧
    (∀ (ps : List ℕ) (g : ℤ), ∀ x ∈ guessTrace num B ps g, 0 ≤ x ∧ x < num) := by
  refine ⟨fun g p => foldStep_mem_range num B g p hnum, fun ps => ?_⟩
  induction ps with
  | nil => intro g x hx; simp [guessTrace] at hx
  | cons p ps ih =>
    intro g x hx
    rw [guessTrace, List.mem_cons] at hx
    rcases hx with rfl | hx
    · exact foldStep_mem_range num B g p hnum
    · exact ih (foldStep num B g p) x hx

/-- Witness for C9 at num = 10, B = 3. -/
theorem guess_always_reduced_witness :
    (∀ (g : ℤ) (p : ℕ), 0 ≤ foldStep 10 3 g p ∧ foldStep 10 3 g p < 10) ∧
    (∀ (ps : List ℕ) (g : ℤ), ∀ x ∈ guessTrace 10 3 ps g, 0 ≤ x ∧ x < 10) :=
  guess_always_reduced 10 3 (by norm_num)

/-! ### Correctness of the incremental sieve -/

/-- Under the invariant the head of the stream is prime. -/
lemma SieveInv.head_prime {p : ℕ} {xs : List ℕ} (h : SieveInv (p :: xs)) :
    Nat.Prime p := by
  obtain ⟨hsort, hmem⟩ := h
  obtain ⟨hp2, hclosed⟩ := hmem p (List.mem_cons_self p xs)
  have hne1 : p ≠ 1 := by omega
  have hmf : p.minFac ∈ p :: xs :=
    hclosed p.minFac (Nat.minFac_prime hne1) (Nat.minFac_dvd p)
  rcases List.mem_cons.mp hmf with heq | hmemtl
  · rw [← heq]; exact Nat.minFac_prime hne1
  · have hlt : p < p.minFac := ((List.sorted_cons.mp hsort).1 _ hmemtl)
    have hle : p.minFac ≤ p := Nat.minFac_le (by omega)
    omega

/-- Filtering out the head's multiples preserves the invariant. -/
lemma SieveInv.filter {p : ℕ} {xs : List ℕ} (h : SieveInv (p :: xs)) :
    SieveInv (xs.filter (fun x => x % p != 0)) := by
  obtain ⟨hsort, hmem⟩ := h
  have hp2 : 2 ≤ p := (hmem p (List.mem_cons_self p xs)).1
  constructor
  · exact List.Pairwise.sublist (List.filter_sublist xs) (List.sorted_cons.mp hsort).2
  · intro x hx
    obtain ⟨hxxs, hxmod⟩ := List.mem_filter.mp hx
    obtain ⟨hx2, hclosed⟩ := hmem x (List.mem_cons_of_mem p hxxs)
    refine ⟨hx2, fun q hq hqx => ?_⟩
    have hqmem : q ∈ p :: xs := hclosed q hq hqx
    have hpx : ¬ p ∣ x := by
      intro hdvd
      have hx0 : x % p = 0 := Nat.dvd_iff_mod_eq_zero.mp hdvd
      simp [hx0] at hxmod
    have hqne : q ≠ p := by
      intro heq; rw [heq] at hqx; exact hpx hqx
    have hqxs : q ∈ xs := by
      rcases List.mem_cons.mp hqmem with heq | hm
      · exact absurd heq hqne
      · exact hm
    refine List.mem_filter.mpr ⟨hqxs, ?_⟩
    have hnd : ¬ p ∣ q := by
      intro hpq
      rcases (Nat.Prime.eq_one_or_self_of_dvd hq p hpq) with h1 | hqp
      · omega
      · exact hqne hqp.symm
    have hq0 : q % p ≠ 0 := fun h0 => hnd (Nat.dvd_iff_mod_eq_zero.mpr h0)
    simpa using hq0

/-- Filtering out multiples of the prime head removes no prime besides
possibly the head itself, which is not in the tail. -/
lemma filter_head_multiples_primes {p : ℕ} {xs : List ℕ} (h : SieveInv (p :: xs)) :
    (xs.filter (fun x => x % p != 0)).filter (fun x => decide (Nat.Prime x)) =
      xs.filter (fun x => decide (Nat.Prime x)) := by
  obtain ⟨hsort, hmem⟩ := h
  have hp2 : 2 ≤ p := (hmem p (List.mem_cons_self p xs)).1
  rw [List.filter_filter]
  apply List.filter_congr
  intro x hx
  by_cases hxp : Nat.Prime x
  · have hlt : p < x := (List.sorted_cons.mp hsort).1 x hx
    have hnd : ¬ p ∣ x := by
      intro hpq
      rcases Nat.Prime.eq_one_or_self_of_dvd hxp p hpq with h1 | hpx
      · omega
      · omega
    have hx0 : x % p ≠ 0 := fun h0 => hnd (Nat.dvd_iff_mod_eq_zero.mpr h0)
    simp [hxp, hx0]
  · simp [hxp]

/-- With enough fuel, the sieve of an invariant stream is exactly the
sublist of its primes. -/
lemma sieveAux_eq_filter :
    ∀ (fuel : ℕ) (l : List ℕ), l.length ≤ fuel → SieveInv l →
      sieveAux fuel l = l.filter (fun x => decide (Nat.Prime x)) := by
  intro fuel
  induction fuel with
  | zero =>
    intro l hlen _
    have hl : l = [] := List.length_eq_zero.mp (by omega)
    subst hl
    rfl
  | succ fuel ih =>
    intro l hlen hinv
    cases l with
    | nil => rfl
    | cons p xs =>
      have hlp : Nat.Prime p := hinv.head_prime
      have hlen2 : (xs.filter (fun x => x % p != 0)).length ≤ fuel := by
        have := List.length_filter_le (fun x => x % p != 0) xs
        simp only [List.length_cons] at hlen
        omega
      rw [sieveAux, ih _ hlen2 hinv.filter, filter_head_multiples_primes hinv]
      show p :: List.filter (fun x => decide (Nat.Prime x)) xs
          = List.filter (fun x => decide (Nat.Prime x)) (p :: xs)
      rw [List.filter_cons_of_pos (by simp [hlp])]

/-- The initial stream range(2, limit + 1) satisfies the invariant. -/
lemma sieveInv_range (n : ℕ) : SieveInv (List.range' 2 n) := by
  constructor
  · exact List.pairwise_lt_range' 2 n
  · intro x hx
    obtain ⟨hx2, hxlt⟩ := List.mem_range'_1.mp hx
    refine ⟨hx2, fun q hq hqx => ?_⟩
    have hq2 : 2 ≤ q := hq.two_le
    have hqle : q ≤ x := Nat.le_of_dvd (by omega) hqx
    exact List.mem_range'_1.mpr ⟨hq2, by omega⟩

/-- The embedded generator produces exactly the primes of the range. -/
lemma generate_primes_eq_filter (limit : ℤ) :
    generate_primes limit =
      (List.range' 2 (limit - 1).toNat).filter (fun x => decide (Nat.Prime x)) := by
  rw [generate_primes]
  exact sieveAux_eq_filter _ _ (le_of_eq (List.length_range' 2 1 ((limit - 1).toNat))) (sieveInv_range _)

/-- The prime stream is strictly ascending, repetition-free, consists
exactly of the primes p with 2 <= p <= limit, and is empty whenever
limit < 2. -/
lemma generate_primes_sound (limit : ℤ) :
    List.Sorted (· < ·) (generate_primes limit) ∧
    (generate_primes limit).Nodup ∧
    (∀ p : ℕ, p ∈ generate_primes limit ↔ Nat.Prime p ∧ (p : ℤ) ≤ limit) ∧
    (limit < 2 → generate_primes limit = []) := by
  have hsort : List.Sorted (· < ·) (generate_primes limit) := by
    rw [generate_primes_eq_filter]
    exact List.Pairwise.sublist (List.filter_sublist _) (List.pairwise_lt_range' 2 _)
  refine ⟨hsort, hsort.nodup, fun p => ?_, fun hlt => ?_⟩
  · rw [generate_primes_eq_filter, List.mem_filter, List.mem_range'_1,
      decide_eq_true_iff]
    constructor
    · rintro ⟨⟨hp2, hplt⟩, hpp⟩
      exact ⟨hpp, by omega⟩
    · rintro ⟨hpp, hple⟩
      have hp2 : 2 ≤ p := hpp.two_le
      exact ⟨⟨hp2, by omega⟩, hpp⟩
  · have h0 : (limit - 1).toNat = 0 := by omega
    rw [generate_primes, h0]
    rfl

/-- C6: for every integer limit, the prime stream is strictly ascending,
repetition-free, finite (it is a list), consists exactly of the primes p
with 2 <= p <= limit, and is empty whenever limit < 2. -/
theorem generate_primes_correct (limit : ℤ) :
    List.Sorted (· < ·) (generate_primes limit) ∧
    (generate_primes limit).Nodup ∧
    (∀ p : ℕ, p ∈ generate_primes limit ↔ Nat.Prime p ∧ (p : ℤ) ≤ limit) ∧
    (limit < 2 → generate_primes limit = []) :=
  generate_primes_sound limit

/-- Witness instance for C6, together with a concrete evaluation: the
stream for limit = 10 is [2, 3, 5, 7]. -/
theorem generate_primes_correct_witness :
    (List.Sorted (· < ·) (generate_primes 10) ∧
      (generate_primes 10).Nodup ∧
      (∀ p : ℕ, p ∈ generate_primes 10 ↔ Nat.Prime p ∧ (p : ℤ) ≤ 10) ∧
      ((10 : ℤ) < 2 → generate_primes 10 = [])) ∧
    generate_primes 10 = [2, 3, 5, 7] :=
  ⟨generate_primes_correct 10, by decide⟩

/-! ### The exact smooth exponent -/

/-- The embedded exponent is the exact floor of the base-p logarithm of
B: p ^ s <= B < p ^ (s + 1).  This is the value the specification
requires the code to use for every streamed prime. -/
theorem smoothExp_exact (B : ℤ) (p : ℕ) (hp : 2 ≤ p) (hpB : (p : ℤ) ≤ B) :
    p ^ smoothExp B p ≤ B.toNat ∧ B.toNat < p ^ (smoothExp B p + 1) := by
  have hB2 : 2 ≤ B.toNat := by omega
  have hp1 : p ^ 1 ≤ B.toNat := by
    rw [pow_one]; omega
  constructor
  · exact @Nat.findGreatest_spec 1 (fun s => p ^ s ≤ B.toNat) (fun s => Nat.decLe _ _)
      B.toNat (by omega) hp1
  · by_contra hcon
    push_neg at hcon
    have hbig : smoothExp B p + 1 ≤ B.toNat := by
      have hlt : smoothExp B p + 1 < B.toNat := calc
        smoothExp B p + 1 < 2 ^ (smoothExp B p + 1) := Nat.lt_two_pow _
        _ ≤ p ^ (smoothExp B p + 1) := Nat.pow_le_pow_left hp _
        _ ≤ B.toNat := hcon
      omega
    exact @Nat.findGreatest_is_greatest (smoothExp B p + 1) (fun s => p ^ s ≤ B.toNat)
      (fun s => Nat.decLe _ _) B.toNat (Nat.lt_succ_self (smoothExp B p)) hbig hcon

set_option maxRecDepth 8000 in
/-- C3 record: at B = 243 and streamed prime p = 3 the exact exponent is
5, attained at the power boundary 3 ^ 5 = 243.  The source's
floating-point expression int(log(243, 3)) evaluates to 4 on IEEE
doubles, so the code folds in 3 ^ 4 there instead of 3 ^ 5. -/
theorem smoothExp_exact_at_boundary :
    smoothExp 243 3 = 5 ∧ (3 : ℕ) ^ 5 = 243 ∧ generate_primes 243 ≠ [] := by
  refine ⟨by decide, by norm_num, ?_⟩
  have h := ((generate_primes_sound 243).2.2.1 3).mpr ⟨by norm_num, by norm_num⟩
  intro hnil
  rw [hnil] at h
  exact absurd h (List.not_mem_nil 3)

/-! ### Success and failure of the search -/

/-- The gcd taken against n only depends on the other argument modulo n. -/
lemma gcd_dvd_gcd_of_dvd_sub (x y n : ℤ) (h : n ∣ x - y) :
    Int.gcd x n ∣ Int.gcd y n := by
  have h1 : (Int.gcd x n : ℤ) ∣ y := by
    have hx : (Int.gcd x n : ℤ) ∣ x := Int.gcd_dvd_left
    have hn : (Int.gcd x n : ℤ) ∣ n := Int.gcd_dvd_right
    have := dvd_sub hx (hn.trans h)
    simpa using this
  exact Int.natCast_dvd_natCast.mp (Int.dvd_gcd h1 Int.gcd_dvd_right)

/-- Congruent arguments give equal gcds against the modulus. -/
lemma gcd_congr_of_dvd_sub (x y n : ℤ) (h : n ∣ x - y) :
    Int.gcd x n = Int.gcd y n :=
  Nat.dvd_antisymm (gcd_dvd_gcd_of_dvd_sub x y n h)
    (gcd_dvd_gcd_of_dvd_sub y x n (by simpa using h.neg_right))

/-- Reducing the power modulo num before subtracting 1 does not change
the divisor that the gcd test computes. -/
lemma gcd_foldStep_eq (num B a : ℤ) (p : ℕ) :
    Int.gcd (foldStep num B a p - 1) num =
      Int.gcd (a ^ (p ^ smoothExp B p) - 1) num := by
  apply gcd_congr_of_dvd_sub
  rw [foldStep]
  have : a ^ (p ^ smoothExp B p) % num - 1 - (a ^ (p ^ smoothExp B p) - 1) =
      -(num * (a ^ (p ^ smoothExp B p) / num)) := by
    rw [Int.emod_def]
    ring
  rw [this]
  exact (dvd_mul_right num _).neg_right

/-- For B >= 2 the prime stream starts with 2. -/
lemma generate_primes_head (B : ℤ) (hB : 2 ≤ B) :
    ∃ tl, generate_primes B = 2 :: tl := by
  obtain ⟨hsort, _, hmem, _⟩ := generate_primes_sound B
  have h2 : 2 ∈ generate_primes B := (hmem 2).mpr ⟨Nat.prime_two, by omega⟩
  cases hgp : generate_primes B with
  | nil => rw [hgp] at h2; exact absurd h2 (List.not_mem_nil 2)
  | cons h tl =>
    rw [hgp] at h2 hsort
    rcases List.mem_cons.mp h2 with he | htl
    · exact ⟨tl, by rw [he]⟩
    · have hlt : h < 2 := (List.sorted_cons.mp hsort).1 2 htl
      have hh : Nat.Prime h := by
        have := (hmem h).mp (by rw [hgp]; exact List.mem_cons_self h tl)
        exact this.1
      have := hh.two_le
      omega

/-- If the divisor found at the very first streamed prime (which is 2)
is nontrivial, the attempt returns it at once. -/
lemma attemptLoop_first_prime (num B : ℤ) (hB : 2 ≤ B) (a : ℤ)
    (h1 : 1 < (Int.gcd (foldStep num B a 2 - 1) num : ℤ))
    (h2 : (Int.gcd (foldStep num B a 2 - 1) num : ℤ) < num) :
    attemptLoop num B (generate_primes B) a =
      some ((Int.gcd (foldStep num B a 2 - 1) num : ℤ)) := by
  obtain ⟨tl, htl⟩ := generate_primes_head B hB
  have hc : (Int.gcd (foldStep num B a 2 - 1) num : ℤ) ≠ 1 ∧
      (Int.gcd (foldStep num B a 2 - 1) num : ℤ) ≠ num := ⟨by omega, by omega⟩
  rw [htl, attemptLoop, if_pos hc]

/-- A base whose first fold-in already produces a nontrivial gcd gives a
full successful run for every positive attempt budget. -/
lemma success_assembly (num B : ℤ) (hnum : 2 ≤ num) (hB : 2 ≤ B) (a : ℤ)
    (ha2 : 2 ≤ a) (haN : a ≤ num)
    (h1 : 1 < (Int.gcd (foldStep num B a 2 - 1) num : ℤ))
    (h2 : (Int.gcd (foldStep num B a 2 - 1) num : ℤ) < num) :
    ∃ draws : ℕ → ℤ, (∀ i, 2 ≤ draws i ∧ draws i ≤ num) ∧
      ∀ step attempts : ℤ, 1 ≤ attempts →
        ∃ d : ℤ, pollard_rho num B step attempts draws = Except.ok (some d) ∧
          1 < d ∧ d < num ∧ d ∣ num := by
  refine ⟨fun _ => a, fun i => ⟨ha2, haN⟩, fun step attempts hatt => ?_⟩
  obtain ⟨j, hj⟩ : ∃ j, attempts.toNat = j + 1 := ⟨attempts.toNat - 1, by omega⟩
  refine ⟨(Int.gcd (foldStep num B a 2 - 1) num : ℤ), ?_, h1, h2, Int.gcd_dvd_right⟩
  rw [pollard_rho, if_neg (by omega), if_neg (by omega), hj, searchFrom,
    attemptLoop_first_prime num B hB a h1 h2]

/-- In the inner loop at num = 4, B = 2, every base fails: an even base
squares to 0 mod 4, giving gcd(-1, 4) = 1, and an odd base squares to
1 mod 4, giving gcd(0, 4) = 4 = num, so no draw produces a divisor. -/
lemma attemptLoop_four_none (g : ℤ) : attemptLoop 4 2 (generate_primes 2) g = none := by
  have hgp : generate_primes 2 = [2] := by decide
  have hse : smoothExp 2 2 = 1 := by decide
  rw [hgp, attemptLoop]
  have hsq : foldStep 4 2 g 2 = 0 ∨ foldStep 4 2 g 2 = 1 := by
    rw [foldStep, hse]
    rcases Int.even_or_odd g with ⟨c, hc⟩ | ⟨c, hc⟩
    · left
      subst hc
      have hpow : (c + c) ^ (2 ^ 1) = 4 * c ^ 2 := by ring
      rw [hpow]
      exact Int.mul_emod_right 4 _
    · right
      subst hc
      have hpow : (2 * c + 1) ^ (2 ^ 1) = 1 + 4 * (c ^ 2 + c) := by ring
      rw [hpow, Int.add_mul_emod_self_left]
      norm_num
  rcases hsq with h0 | h1
  · rw [h0]
    have hg : Int.gcd ((0 : ℤ) - 1) 4 = 1 := by decide
    rw [hg, if_neg (by norm_num)]
    rfl
  · rw [h1]
    have hg : Int.gcd ((1 : ℤ) - 1) 4 = 4 := by decide
    rw [hg, if_neg (by norm_num)]
    rfl

/-- C1 counterexample: num = 4 is composite with prime factor p = 2, and
p - 1 = 1 is vacuously B-smooth for B = 2 (it has no prime factor), yet
no step value, attempt budget or draw sequence ever makes the search
return a value: the claim fails as stated. -/
theorem find_factor_four_never_succeeds :
    ¬ ∃ (step attempts : ℤ) (draws : ℕ → ℤ) (d : ℤ),
        pollard_rho 4 2 step attempts draws = Except.ok (some d) := by
  rintro ⟨step, attempts, draws, d, h⟩
  have hsf : ∀ (k i : ℕ), searchFrom 4 2 draws i k = none := by
    intro k
    induction k with
    | zero => intro i; rfl
    | succ k ih =>
      intro i
      rw [searchFrom, attemptLoop_four_none (draws i)]
      exact ih (i + 1)
  rw [pollard_rho, if_neg (by norm_num), if_neg (by norm_num), hsf] at h
  exact absurd h (by simp)

/-- Binomial expansion to second order: (1 + t) ^ r = 1 + r t + c t ^ 2
for some integer c. -/
lemma one_add_pow_eq (t : ℤ) : ∀ r : ℕ, ∃ c : ℤ, (1 + t) ^ r = 1 + r * t + c * t ^ 2 := by
  intro r
  induction r with
  | zero => exact ⟨0, by norm_num⟩
  | succ r ih =>
    obtain ⟨c, hc⟩ := ih
    refine ⟨c + r + c * t, ?_⟩
    rw [pow_succ, hc]
    push_cast
    ring

/-- Splitting the modulus into coprime parts u * m: a base congruent to
1 mod u and divisible by m has gcd(base ^ r - 1, u * m) exactly u. -/
lemma gcd_pow_sub_one_of_crt (u m a r : ℕ)
    (hu3 : 3 ≤ u) (hr : 1 ≤ r)
    (hau : a % u = 1) (ham : m ∣ a) :
    Int.gcd ((a : ℤ) ^ r - 1) ((u * m : ℕ) : ℤ) = u := by
  have ha0 : 0 < a := by
    rcases Nat.eq_zero_or_pos a with h0 | h
    · rw [h0] at hau; simp at hau
    · exact h
  have haMod : a ≡ 1 [MOD u] := by
    show a % u = 1 % u
    rw [hau, Nat.mod_eq_of_lt (by omega)]
  have hpow : a ^ r ≡ 1 [MOD u] := by
    have := haMod.pow r
    simpa using this
  have h1ar : 1 ≤ a ^ r := Nat.one_le_pow r a ha0
  have hdvd_nat : u ∣ a ^ r - 1 := (Nat.modEq_iff_dvd' h1ar).mp hpow.symm
  have hu_x : (u : ℤ) ∣ (a : ℤ) ^ r - 1 := by
    have := Int.natCast_dvd_natCast.mpr hdvd_nat
    rwa [Nat.cast_sub h1ar, Nat.cast_pow, Nat.cast_one] at this
  have hg_dvd_N : Int.gcd ((a : ℤ) ^ r - 1) ((u * m : ℕ) : ℤ) ∣ u * m := by
    have : ((Int.gcd ((a : ℤ) ^ r - 1) ((u * m : ℕ) : ℤ) : ℕ) : ℤ) ∣ ((u * m : ℕ) : ℤ) :=
      Int.gcd_dvd_right
    exact_mod_cast this
  have hg_dvd_xAbs : Int.gcd ((a : ℤ) ^ r - 1) ((u * m : ℕ) : ℤ) ∣
      ((a : ℤ) ^ r - 1).natAbs := by
    have h1 : ((Int.gcd ((a : ℤ) ^ r - 1) ((u * m : ℕ) : ℤ) : ℕ) : ℤ) ∣ (a : ℤ) ^ r - 1 :=
      Int.gcd_dvd_left
    have h2 := Int.natAbs_dvd_natAbs.mpr h1
    rwa [Int.natAbs_ofNat] at h2
  have hcop_mx : Nat.Coprime m ((a : ℤ) ^ r - 1).natAbs := by
    have hd_m : Nat.gcd m ((a : ℤ) ^ r - 1).natAbs ∣ m := Nat.gcd_dvd_left _ _
    have hd_x : Nat.gcd m ((a : ℤ) ^ r - 1).natAbs ∣ ((a : ℤ) ^ r - 1).natAbs :=
      Nat.gcd_dvd_right _ _
    have hdz1 : ((Nat.gcd m ((a : ℤ) ^ r - 1).natAbs : ℕ) : ℤ) ∣ (a : ℤ) ^ r := by
      have hda : ((Nat.gcd m ((a : ℤ) ^ r - 1).natAbs : ℕ) : ℤ) ∣ (a : ℤ) :=
        Int.natCast_dvd_natCast.mpr (hd_m.trans ham)
      exact hda.trans (dvd_pow_self (a : ℤ) (by omega))
    have hdz2 : ((Nat.gcd m ((a : ℤ) ^ r - 1).natAbs : ℕ) : ℤ) ∣ (a : ℤ) ^ r - 1 :=
      Int.dvd_natAbs.mp (Int.natCast_dvd_natCast.mpr hd_x)
    have hone : ((Nat.gcd m ((a : ℤ) ^ r - 1).natAbs : ℕ) : ℤ) ∣ 1 := by
      have := dvd_sub hdz1 hdz2
      simpa using this
    have : Nat.gcd m ((a : ℤ) ^ r - 1).natAbs ∣ 1 := by exact_mod_cast hone
    exact Nat.dvd_one.mp this
  have hcop_gm : Nat.Coprime (Int.gcd ((a : ℤ) ^ r - 1) ((u * m : ℕ) : ℤ)) m :=
    Nat.Coprime.coprime_dvd_left hg_dvd_xAbs hcop_mx.symm
  have hg_dvd_u : Int.gcd ((a : ℤ) ^ r - 1) ((u * m : ℕ) : ℤ) ∣ u :=
    hcop_gm.dvd_of_dvd_mul_right hg_dvd_N
  have hu_dvd_g : u ∣ Int.gcd ((a : ℤ) ^ r - 1) ((u * m : ℕ) : ℤ) := by
    have : (u : ℤ) ∣ ((Int.gcd ((a : ℤ) ^ r - 1) ((u * m : ℕ) : ℤ) : ℕ) : ℤ) :=
      Int.dvd_gcd hu_x (by exact_mod_cast Int.natCast_dvd_natCast.mpr (Dvd.intro m rfl))
    exact_mod_cast this
  exact Nat.dvd_antisymm hg_dvd_u hu_dvd_g

/-- Odd prime power modulus p ^ k with k >= 2: the base 1 + p ^ (k - 1)
raised to any positive power r not divisible by p has
gcd(base ^ r - 1, p ^ k) = p ^ (k - 1). -/
lemma gcd_pow_sub_one_prime_power (p k r : ℕ) (hp : Nat.Prime p) (hp3 : 3 ≤ p)
    (hk : 2 ≤ k) (hpr : ¬ p ∣ r) :
    Int.gcd (((p ^ (k - 1) + 1 : ℕ) : ℤ) ^ r - 1) ((p ^ k : ℕ) : ℤ) = p ^ (k - 1) := by
  have hk1 : k - 1 ≠ 0 := by omega
  have ht0 : (0 : ℤ) < (p : ℤ) ^ (k - 1) := by positivity
  have hacast : ((p ^ (k - 1) + 1 : ℕ) : ℤ) = 1 + (p : ℤ) ^ (k - 1) := by push_cast; ring
  obtain ⟨c, hc⟩ := one_add_pow_eq ((p : ℤ) ^ (k - 1)) r
  have hx : ((p ^ (k - 1) + 1 : ℕ) : ℤ) ^ r - 1 =
      (p : ℤ) ^ (k - 1) * ((r : ℤ) + c * (p : ℤ) ^ (k - 1)) := by
    rw [hacast, hc]; ring
  have hpk_eq : ((p ^ k : ℕ) : ℤ) = (p : ℤ) ^ (k - 1) * (p : ℤ) := by
    rw [← pow_succ, show k - 1 + 1 = k from by omega]
    push_cast
    rfl
  have ht_x : (p : ℤ) ^ (k - 1) ∣ ((p ^ (k - 1) + 1 : ℕ) : ℤ) ^ r - 1 := by
    rw [hx]; exact Dvd.intro _ rfl
  have hnot : ¬ ((p : ℤ) ^ (k - 1) * (p : ℤ) ∣ ((p ^ (k - 1) + 1 : ℕ) : ℤ) ^ r - 1) := by
    intro hdvd
    rw [hx] at hdvd
    have hpd : (p : ℤ) ∣ (r : ℤ) + c * (p : ℤ) ^ (k - 1) :=
      (mul_dvd_mul_iff_left (by omega : (p : ℤ) ^ (k - 1) ≠ 0)).mp hdvd
    have hpt : (p : ℤ) ∣ c * (p : ℤ) ^ (k - 1) :=
      (dvd_pow_self (p : ℤ) hk1).trans (dvd_mul_left _ c)
    have hpr2 : (p : ℤ) ∣ (r : ℤ) := by
      have := dvd_sub hpd hpt
      simpa using this
    exact hpr (by exact_mod_cast hpr2)
  have hg_dvd : Int.gcd (((p ^ (k - 1) + 1 : ℕ) : ℤ) ^ r - 1) ((p ^ k : ℕ) : ℤ) ∣ p ^ k := by
    have : ((Int.gcd (((p ^ (k - 1) + 1 : ℕ) : ℤ) ^ r - 1) ((p ^ k : ℕ) : ℤ) : ℕ) : ℤ) ∣
        ((p ^ k : ℕ) : ℤ) := Int.gcd_dvd_right
    exact_mod_cast this
  have hpk1_g : p ^ (k - 1) ∣
      Int.gcd (((p ^ (k - 1) + 1 : ℕ) : ℤ) ^ r - 1) ((p ^ k : ℕ) : ℤ) := by
    have ht_n : (p : ℤ) ^ (k - 1) ∣ ((p ^ k : ℕ) : ℤ) := by
      rw [hpk_eq]; exact Dvd.intro _ rfl
    have : ((p ^ (k - 1) : ℕ) : ℤ) ∣
        ((Int.gcd (((p ^ (k - 1) + 1 : ℕ) : ℤ) ^ r - 1) ((p ^ k : ℕ) : ℤ) : ℕ) : ℤ) := by
      rw [Nat.cast_pow]
      exact Int.dvd_gcd ht_x ht_n
    exact_mod_cast this
  obtain ⟨j, hj_le, hj_eq⟩ := (Nat.dvd_prime_pow hp).mp hg_dvd
  have hj_ge : k - 1 ≤ j := by
    rw [hj_eq] at hpk1_g
    exact (Nat.pow_dvd_pow_iff_le_right hp.one_lt).mp hpk1_g
  have hj_ne : j ≠ k := by
    intro hjk
    apply hnot
    have hgl : ((Int.gcd (((p ^ (k - 1) + 1 : ℕ) : ℤ) ^ r - 1) ((p ^ k : ℕ) : ℤ) : ℕ) : ℤ) ∣
        ((p ^ (k - 1) + 1 : ℕ) : ℤ) ^ r - 1 := Int.gcd_dvd_left
    rw [hj_eq, hjk] at hgl
    rw [← hpk_eq]
    exact hgl
  have : j = k - 1 := by omega
  rw [hj_eq, this]

/-- C1 (amended: the prime factor p must be odd).  For every composite
num with an odd prime factor p such that p - 1 is B-smooth, there is a
sequence of in-range random draws under which the search returns a
proper divisor of num, whatever the step value, for every attempt budget
of at least one.  Compositeness of num is expressed by p dividing num
properly; B >= 2 is automatic since 2 divides p - 1. -/
theorem find_factor_success_exists (num B : ℤ) (p : ℕ)
    (hp : Nat.Prime p) (hodd : p ≠ 2)
    (hdvd : (p : ℤ) ∣ num) (hnum : 2 ≤ num) (hcomp : (p : ℤ) ≠ num)
    (hsmooth : ∀ q : ℕ, q.Prime → q ∣ (p - 1) → (q : ℤ) ≤ B) :
    ∃ draws : ℕ → ℤ, (∀ i, 2 ≤ draws i ∧ draws i ≤ num) ∧
      ∀ step attempts : ℤ, 1 ≤ attempts →
        ∃ d : ℤ, pollard_rho num B step attempts draws = Except.ok (some d) ∧
          1 < d ∧ d < num ∧ d ∣ num := by
  have hp3 : 3 ≤ p := by
    have h2 := hp.two_le
    omega
  have hB : 2 ≤ B := by
    refine hsmooth 2 Nat.prime_two ?_
    obtain ⟨c, hc⟩ := hp.odd_of_ne_two hodd
    omega
  have hNcast : ((num.toNat : ℤ)) = num := Int.toNat_of_nonneg (by omega)
  have hN2 : 2 ≤ num.toNat := by omega
  have hpN : p ∣ num.toNat := by
    rw [← Int.natCast_dvd_natCast, hNcast]
    exact hdvd
  have hpneN : p ≠ num.toNat := fun he => hcomp (by rw [he, hNcast])
  have hr1 : 1 ≤ 2 ^ smoothExp B 2 := Nat.one_le_two_pow
  have hpr : ¬ p ∣ 2 ^ smoothExp B 2 := by
    intro hdp
    have := Nat.le_of_dvd (by omega) (hp.dvd_of_dvd_pow hdp)
    omega
  obtain ⟨k, m, hk1, hum, hco⟩ :
      ∃ k m, 0 < k ∧ p ^ k * m = num.toNat ∧ Nat.Coprime (p ^ k) m :=
    ⟨num.toNat.factorization p, num.toNat / p ^ num.toNat.factorization p,
      hp.factorization_pos_of_dvd (by omega) hpN,
      Nat.ordProj_mul_ordCompl_eq_self num.toNat p,
      (Nat.coprime_ordCompl hp (by omega)).pow_left _⟩
  have hu3 : 3 ≤ p ^ k := le_trans hp3 (Nat.le_self_pow (by omega) p)
  by_cases hm1 : m = 1
  · -- num is the odd prime power p ^ k with k >= 2: base 1 + p ^ (k - 1)
    have hNu : num.toNat = p ^ k := by
      rw [← hum, hm1, mul_one]
    have hk2 : 2 ≤ k := by
      rcases Nat.lt_or_ge k 2 with hlt | hge
      · exfalso
        apply hpneN
        rw [hNu, show k = 1 by omega, pow_one]
      · exact hge
    have hgcd := gcd_pow_sub_one_prime_power p k (2 ^ smoothExp B 2) hp hp3 hk2 hpr
    have hlt_pow : p ^ (k - 1) < p ^ k := Nat.pow_lt_pow_right hp.one_lt (by omega)
    have ha_le : p ^ (k - 1) + 1 ≤ num.toNat := by
      have h1 : 1 ≤ p ^ (k - 1) := Nat.one_le_pow _ _ (by omega)
      have h2 : p ^ (k - 1) * 2 ≤ p ^ (k - 1) * p := Nat.mul_le_mul_left _ (by omega)
      have h3 : p ^ (k - 1) * p = p ^ k := by
        rw [← pow_succ, show k - 1 + 1 = k from by omega]
      omega
    have hkey : Int.gcd (foldStep num B ((p ^ (k - 1) + 1 : ℕ) : ℤ) 2 - 1) num =
        p ^ (k - 1) := by
      rw [gcd_foldStep_eq]
      rw [show num = ((p ^ k : ℕ) : ℤ) from by rw [← hNu, hNcast]]
      exact hgcd
    apply success_assembly num B hnum hB ((p ^ (k - 1) + 1 : ℕ) : ℤ)
    · have h1 : 1 ≤ p ^ (k - 1) := Nat.one_le_pow _ _ (by omega)
      exact_mod_cast by omega
    · rw [← hNcast]
      exact_mod_cast ha_le
    · rw [hkey]
      exact_mod_cast Nat.one_lt_pow (by omega) hp.one_lt
    · rw [hkey, ← hNcast, hNu]
      exact_mod_cast hlt_pow
  · -- num splits as the coprime product p ^ k * m with m >= 2: CRT base
    have hm0 : m ≠ 0 := by
      intro h0
      rw [h0, mul_zero] at hum
      omega
    have hm2 : 2 ≤ m := by omega
    have huN : p ^ k ∣ num.toNat := Dvd.intro m hum
    have hmN : m ∣ num.toNat := Dvd.intro_left (p ^ k) hum
    obtain ⟨a0, hau, ham, haN, ha2⟩ :
        ∃ a0, a0 % (p ^ k) = 1 ∧ m ∣ a0 ∧ a0 < num.toNat ∧ 2 ≤ a0 := by
      obtain ⟨c, hc1, hc0⟩ := Nat.chineseRemainder hco 1 0
      have hau : (c % num.toNat) % (p ^ k) = 1 := by
        rw [Nat.mod_mod_of_dvd c huN]
        have hc1' : c % (p ^ k) = 1 % (p ^ k) := hc1
        rw [hc1', Nat.mod_eq_of_lt (by omega)]
      have ham : m ∣ c % num.toNat := by
        refine (Nat.dvd_mod_iff hmN).mpr ?_
        exact (Nat.modEq_zero_iff_dvd).mp hc0
      have haN : c % num.toNat < num.toNat := Nat.mod_lt c (by omega)
      have ha2 : 2 ≤ c % num.toNat := by
        have ha0 : c % num.toNat ≠ 0 := by
          intro h0
          rw [h0] at hau
          simp at hau
        have ha1 : c % num.toNat ≠ 1 := by
          intro h1
          rw [h1] at ham
          have := Nat.dvd_one.mp ham
          omega
        omega
      exact ⟨c % num.toNat, hau, ham, haN, ha2⟩
    have hgcd := gcd_pow_sub_one_of_crt (p ^ k) m a0 (2 ^ smoothExp B 2)
      hu3 hr1 hau ham
    have hult : p ^ k < num.toNat := by
      have h2 : p ^ k * 2 ≤ p ^ k * m := Nat.mul_le_mul_left _ hm2
      omega
    have hkey : Int.gcd (foldStep num B ((a0 : ℕ) : ℤ) 2 - 1) num = p ^ k := by
      rw [gcd_foldStep_eq]
      rw [show num = ((p ^ k * m : ℕ) : ℤ) from by rw [hum, hNcast]]
      exact hgcd
    apply success_assembly num B hnum hB ((a0 : ℕ) : ℤ)
    · exact_mod_cast ha2
    · rw [← hNcast]
      exact_mod_cast le_of_lt haN
    · rw [hkey]
      exact_mod_cast lt_of_lt_of_le one_lt_two (by omega : 2 ≤ p ^ k)
    · rw [hkey, ← hNcast]
      exact_mod_cast hult

/-- Witness for the amended C1 at num = 15 = 3 * 5, p = 3 (odd, 3 - 1 = 2
is 2-smooth), B = 2. -/
theorem find_factor_success_exists_witness :
    ∃ draws : ℕ → ℤ, (∀ i, 2 ≤ draws i ∧ draws i ≤ 15) ∧
      ∀ step attempts : ℤ, 1 ≤ attempts →
        ∃ d : ℤ, pollard_rho 15 2 step attempts draws = Except.ok (some d) ∧
          1 < d ∧ d < 15 ∧ d ∣ 15 :=
  find_factor_success_exists 15 2 3 (by norm_num) (by norm_num) (by norm_num)
    (by norm_num) (by norm_num)
    (fun q hq hdq => by
      have hq2 : q ≤ 2 := Nat.le_of_dvd (by norm_num) hdq
      exact_mod_cast hq2)

/-- C10: the result never depends on the unused step parameter. -/
theorem find_factor_step_independent (num B step1 step2 attempts : ℤ) (draws : ℕ → ℤ) :
    pollard_rho num B step1 attempts draws = pollard_rho num B step2 attempts draws := rfl

end PollardPMinusOne
